import Mathlib

/-!
Verification of the retrieval-and-reasoning frontends of the CGU LAI
research project against its specification.

The development shallowly embeds the JavaScript sources:

* `src/chatbot/static/js/app.js` (namespace `Chatbot`): conversation
  history windowing, the chat request payload, submit serialization and
  message formatting (HTML escaping plus markdown-like substitutions);
* `src/mvp/frontend/src/components/AppealAnalysis.jsx`
  (namespace `AppealAnalysis`): form validation, submission gating and
  the numeric-input coercions of `handleInputChange`;
* `src/mvp/frontend/src/components/ProtocolSearch.jsx`
  (namespace `ProtocolSearch`): the protocol lookup state machine and
  its NotFound handling;
* `src/mvp/frontend/src/components/AppealSearch.jsx`
  (namespace `AppealSearch`): the expandable-text excerpt renderer and
  the topK input coercion;
* the Outcome Aggregator and Cross-Reference Joiner of the
  specification's core (namespace `Core`), whose backend code is not
  part of the repository snapshot and is therefore modelled from the
  spec's words.

JavaScript strings are modelled as `List Char`, machine numbers as
`Int`/`ℚ` (the numeric ranges involved never overflow), and fallible
paths as `Option`/`Except`.
-/

namespace Js

/-- JavaScript `s.trim()`: strips whitespace from both ends. (Defined
over the character list so that concrete instances reduce.) -/
def trim (s : String) : String :=
  ⟨((s.data.dropWhile (·.isWhitespace)).reverse.dropWhile (·.isWhitespace)).reverse⟩

/-- The value of a run of decimal digits, as JavaScript number parsing
accumulates it. -/
def digitsToNat (ds : List Char) : Nat :=
  ds.foldl (fun a c => 10 * a + (c.toNat - 48)) 0

/-- JavaScript `parseInt(s)` (radix 10): skips leading whitespace, reads
an optional sign and then the longest run of leading decimal digits;
`none` models the `NaN` result when no digit is found. -/
def parseInt (s : String) : Option Int :=
  let cs := s.data.dropWhile (·.isWhitespace)
  match cs with
  | '-' :: rest =>
      if rest.takeWhile (·.isDigit) = [] then none
      else some (-(digitsToNat (rest.takeWhile (·.isDigit)) : Int))
  | '+' :: rest =>
      if rest.takeWhile (·.isDigit) = [] then none
      else some (digitsToNat (rest.takeWhile (·.isDigit)) : Int)
  | _ =>
      if cs.takeWhile (·.isDigit) = [] then none
      else some (digitsToNat (cs.takeWhile (·.isDigit)) : Int)

/-- JavaScript `parseFloat(s)`: skips leading whitespace, reads an
optional sign, an integer part and an optional fractional part; `none`
models the `NaN` result when neither part holds a digit. (A trailing
exponent suffix is not modelled; it only scales an already-numeric
value and never turns a non-numeric input into a numeric one.) -/
def parseFloat (s : String) : Option ℚ :=
  let cs := s.data.dropWhile (·.isWhitespace)
  let body := match cs with
    | '-' :: rest => rest
    | '+' :: rest => rest
    | _ => cs
  let ip := body.takeWhile (·.isDigit)
  let fp := match body.dropWhile (·.isDigit) with
    | '.' :: rest => rest.takeWhile (·.isDigit)
    | _ => []
  if ip = [] ∧ fp = [] then none
  else
    let mag : ℚ := (digitsToNat ip : ℚ) + (digitsToNat fp : ℚ) / 10 ^ fp.length
    some (if cs.head? = some '-' then -mag else mag)

/-- JavaScript `x || d` on a parse result: the default replaces `NaN`
(modelled by `none`) and the falsy value `0`. -/
def orElseInt (x : Option Int) (d : Int) : Int :=
  match x with
  | none => d
  | some n => if n = 0 then d else n

/-- JavaScript `x || d` for a `parseFloat` result. -/
def orElseRat (x : Option ℚ) (d : ℚ) : ℚ :=
  match x with
  | none => d
  | some q => if q = 0 then d else q

end Js

namespace Chatbot

/-- A conversation turn as stored in `state.history`:
`{ role, content }` with `role` either `"user"` or `"assistant"`. -/
structure Turn where
  role : String
  content : String
deriving DecidableEq

/-- `CONFIG.HISTORY_LIMIT` of `app.js` ("Max history pairs (user + bot)
to send"). -/
def CONFIG_HISTORY_LIMIT : Nat := 10

/-- JavaScript `arr.slice(-n)`: the last `min n arr.length` elements. -/
def jsSliceLast (n : Nat) (l : List α) : List α :=
  l.drop (l.length - n)

/-- `addToHistory(role, content)`: push the turn, then if the history
holds more than `CONFIG.HISTORY_LIMIT * 2` entries keep only the last
`CONFIG.HISTORY_LIMIT * 2` (`state.history.slice(-CONFIG.HISTORY_LIMIT * 2)`). -/
def addToHistory (hist : List Turn) (t : Turn) : List Turn :=
  let h := hist ++ [t]
  if CONFIG_HISTORY_LIMIT * 2 < h.length then jsSliceLast (CONFIG_HISTORY_LIMIT * 2) h
  else h

/-- The JSON body `sendMessageToAPI` posts to `/chat`:
`{ message, history: history.slice(-CONFIG.HISTORY_LIMIT), k: 5 }`. -/
structure ChatRequest where
  message : String
  history : List Turn
  k : Nat
deriving DecidableEq

/-- `sendMessageToAPI(message, history)`: builds the request body. -/
def sendMessageToAPI (message : String) (history : List Turn) : ChatRequest :=
  { message := message
    history := jsSliceLast CONFIG_HISTORY_LIMIT history
    k := 5 }

/-- The mutable chatbot state: `state.history` and `state.isLoading`. -/
structure ChatState where
  history : List Turn
  isLoading : Bool
deriving DecidableEq

/-- `handleFormSubmit()`: trims the input; returns unchanged doing
nothing when the message is empty or a query is already in flight
(`if (!message || state.isLoading) return`), otherwise appends the user
turn and issues the API request with the updated history. -/
def handleFormSubmit (st : ChatState) (input : String) : ChatState × Option ChatRequest :=
  let message := Js.trim input
  if message = "" ∨ st.isLoading then (st, none)
  else
    let hist := addToHistory st.history ⟨"user", message⟩
    ({ history := hist, isLoading := true }, some (sendMessageToAPI message hist))

lemma foldl_addToHistory (turns : List Turn) :
    turns.foldl addToHistory [] = turns.drop (turns.length - CONFIG_HISTORY_LIMIT * 2) := by
  induction turns using List.reverseRecOn with
  | nil => simp
  | append_singleton ts t ih =>
    rw [List.foldl_append, List.foldl_cons, List.foldl_nil, ih]
    simp only [addToHistory, jsSliceLast]
    by_cases hlen : ts.length < CONFIG_HISTORY_LIMIT * 2
    · have h0 : ts.length - CONFIG_HISTORY_LIMIT * 2 = 0 := by omega
      rw [h0, List.drop_zero]
      have hc : ¬ CONFIG_HISTORY_LIMIT * 2 < (ts ++ [t]).length := by
        simp only [List.length_append, List.length_cons, List.length_nil]
        omega
      rw [if_neg hc]
      have h1 : (ts ++ [t]).length - CONFIG_HISTORY_LIMIT * 2 = 0 := by
        simp only [List.length_append, List.length_cons, List.length_nil]
        omega
      rw [h1, List.drop_zero]
    · push_neg at hlen
      have hpos : 0 < CONFIG_HISTORY_LIMIT := by norm_num [CONFIG_HISTORY_LIMIT]
      have hd : (ts.drop (ts.length - CONFIG_HISTORY_LIMIT * 2)).length = CONFIG_HISTORY_LIMIT * 2 := by
        simp only [List.length_drop]
        omega
      have hc : CONFIG_HISTORY_LIMIT * 2 <
          (ts.drop (ts.length - CONFIG_HISTORY_LIMIT * 2) ++ [t]).length := by
        simp only [List.length_append, List.length_cons, List.length_nil, hd]
        omega
      rw [if_pos hc]
      have h1 : (ts.drop (ts.length - CONFIG_HISTORY_LIMIT * 2) ++ [t]).length -
          CONFIG_HISTORY_LIMIT * 2 = 1 := by
        simp only [List.length_append, List.length_cons, List.length_nil, hd]
        omega
      have h2 : (ts ++ [t]).length - CONFIG_HISTORY_LIMIT * 2 =
          ts.length - CONFIG_HISTORY_LIMIT * 2 + 1 := by
        simp only [List.length_append, List.length_cons, List.length_nil]
        omega
      rw [h1, List.drop_append_of_le_length (by rw [hd]; omega),
        List.drop_drop, h2,
        List.drop_append_of_le_length (by omega)]

/-- C1: appending any sequence of turns to an initially empty
Conversation State through `addToHistory` leaves a stored history that
never exceeds the configured window of `CONFIG.HISTORY_LIMIT * 2`
entries, and that is exactly the most recent suffix of the appended
turns in their original order (oldest evicted first). -/
theorem history_window_invariant (turns : List Turn) :
    (turns.foldl addToHistory []).length ≤ CONFIG_HISTORY_LIMIT * 2 ∧
    turns.foldl addToHistory [] =
      turns.drop (turns.length - CONFIG_HISTORY_LIMIT * 2) := by
  refine ⟨?_, foldl_addToHistory turns⟩
  rw [foldl_addToHistory]
  simp only [List.length_drop]
  omega

/-- C2: the history attached to an outgoing `/chat` request is exactly
the most recent `CONFIG.HISTORY_LIMIT` turns of the stored history, in
chronological order, with all older turns dropped: the stored history
splits as the dropped older turns followed by the sent slice, and the
slice has length `min CONFIG.HISTORY_LIMIT history.length`. -/
theorem request_history_most_recent (message : String) (history : List Turn) :
    ∃ older, history = older ++ (sendMessageToAPI message history).history ∧
      (sendMessageToAPI message history).history.length =
        min CONFIG_HISTORY_LIMIT history.length := by
  refine ⟨history.take (history.length - CONFIG_HISTORY_LIMIT), ?_, ?_⟩
  · simp [sendMessageToAPI, jsSliceLast]
  · simp [sendMessageToAPI, jsSliceLast]
    omega

/-- C5: a session handles at most one in-flight query: while
`state.isLoading` holds, submitting another message leaves the state
(history included) unchanged and starts no second request. -/
theorem in_flight_submit_is_noop (st : ChatState) (input : String)
    (h : st.isLoading = true) :
    handleFormSubmit st input = (st, none) := by
  unfold handleFormSubmit
  rw [if_pos (Or.inr (by simp [h]))]

/-- Witness for C5 at a concrete loading state and input. -/
theorem in_flight_submit_is_noop_witness :
    handleFormSubmit ⟨[⟨"user", "primeira pergunta"⟩], true⟩ "segunda pergunta" =
      (⟨[⟨"user", "primeira pergunta"⟩], true⟩, none) :=
  in_flight_submit_is_noop ⟨[⟨"user", "primeira pergunta"⟩], true⟩ "segunda pergunta" rfl

end Chatbot

namespace AppealAnalysis

/-- The validation errors `validateForm` can record in `errors`
(one constructor per message set by the component). -/
inductive FormError where
  | textRequired
  | textTooShort
  | textTooLong
  | topKOutOfRange
  | minScoreOutOfRange
deriving DecidableEq

/-- The `formData` state of the appeal-analysis form. -/
structure AnalysisForm where
  text : String
  top_k : Int
  instance_filter : String
  min_score : ℚ
deriving DecidableEq

/-- `validateForm()`: the text must be non-blank, at least 10 and at
most 5000 characters; `top_k` must lie in 1..50 and `min_score` in
[0, 1]. Returns the recorded errors (the form is valid iff none). -/
def validateForm (f : AnalysisForm) : List FormError :=
  (if f.text.trim = "" then [FormError.textRequired]
   else if f.text.length < 10 then [FormError.textTooShort]
   else if 5000 < f.text.length then [FormError.textTooLong]
   else [])
  ++ (if f.top_k < 1 ∨ 50 < f.top_k then [FormError.topKOutOfRange] else [])
  ++ (if f.min_score < 0 ∨ 1 < f.min_score then [FormError.minScoreOutOfRange] else [])

/-- The API request `handleSubmit` can issue: `POST /analyze-appeal` or
`POST /analyze-appeal-with-draft`. -/
inductive AnalysisRequest where
  | analyzeAppeal (f : AnalysisForm)
  | analyzeAppealWithDraft (f : AnalysisForm)
deriving DecidableEq

/-- `handleSubmit(e)`: when `validateForm()` reports an error the submit
stops with a toast and no request is issued; otherwise the form is sent
to the analysis endpoint selected by `includeDraft`. -/
def handleSubmit (f : AnalysisForm) (includeDraft : Bool) : Option AnalysisRequest :=
  if validateForm f = [] then
    some (if includeDraft then AnalysisRequest.analyzeAppealWithDraft f
          else AnalysisRequest.analyzeAppeal f)
  else none

/-- The `top_k` branch of `handleInputChange`:
`parseInt(value) || 1`. -/
def topKChange (v : String) : Int :=
  Js.orElseInt (Js.parseInt v) 1

/-- The `min_score` branch of `handleInputChange`:
`parseFloat(value) || 0`. -/
def minScoreChange (v : String) : ℚ :=
  Js.orElseRat (Js.parseFloat v) 0

/-- `renderExpandableText(text, appealId, maxLength = 300)`: the text
span rendered for a similar appeal's response, as a function of the
expansion flag `expandedResponses[appealId]`. Text within the bound is
rendered in full; longer text is shown whole when expanded and as
`text.substring(0, maxLength)` followed by the `...` marker when
collapsed. -/
def renderExpandableText (text : List Char) (isExpanded : Bool)
    (maxLength : Nat := 300) : List Char :=
  if maxLength < text.length then
    if isExpanded then text else text.take maxLength ++ "...".data
  else text

/-- C3: a query whose `top_k` lies outside 1..50 or whose `min_score`
lies outside [0, 1] is rejected by `validateForm` before any request is
issued: `handleSubmit` performs no API call, so no retrieval work is
done and no results are produced. -/
theorem malformed_query_rejected (f : AnalysisForm) (includeDraft : Bool)
    (h : f.top_k < 1 ∨ 50 < f.top_k ∨ f.min_score < 0 ∨ 1 < f.min_score) :
    handleSubmit f includeDraft = none := by
  have hne : validateForm f ≠ [] := by
    rcases h with h | h | h | h
    · simp [validateForm, if_pos (Or.inl h)]
    · simp [validateForm, if_pos (Or.inr h)]
    · simp [validateForm, if_pos (Or.inl h)]
    · simp [validateForm, if_pos (Or.inr h)]
  unfold handleSubmit
  rw [if_neg hne]

/-- Witness for C3: `top_k = 0` is out of range, so the submit issues
no request even though the text is valid. -/
theorem malformed_query_rejected_witness :
    handleSubmit ⟨"recurso contra negativa de acesso a documentos", 0, "", 0⟩ false = none :=
  malformed_query_rejected ⟨"recurso contra negativa de acesso a documentos", 0, "", 0⟩
    false (Or.inl (by norm_num))

end AppealAnalysis

namespace ProtocolSearch

/-- A similar request as returned in `similar_requests` and rendered by
the component. -/
structure SimilarRequest where
  id : String
  protocol : String
  summary : String
  details : String
  decision : String
  score : ℚ
deriving DecidableEq

/-- The original request returned as `original_request`. -/
structure OriginalRequest where
  id : String
  protocol : String
  summary : String
  details : String
  decision : String
deriving DecidableEq

/-- The JSON payload of `GET /context-by-protocol/...` as the component
reads it; `similar_requests` is `none` when the field is missing
(`!data.similar_requests` throws "Resposta da API invalida"). -/
structure ProtocolData where
  original_request : Option OriginalRequest
  similar_requests : Option (List SimilarRequest)
deriving DecidableEq

/-- The user-visible error states the component can set (`setError`). -/
inductive PSMessage where
  | informProtocol
  | protocolNotFound (protocolId : String)
  | searchFailed
deriving DecidableEq

/-- The component state touched by `handleSearch`. -/
structure PSState where
  protocolId : String
  topK : Int
  results : List SimilarRequest
  originalRequest : Option OriginalRequest
  loading : Bool
  error : Option PSMessage
deriving DecidableEq

/-- The API requests the component can issue. `semanticSearch` never
occurs in the component's code; it is listed so that its absence from
the issued calls is a statement, not a typing accident. -/
inductive ApiCall where
  | findSimilarRequests (protocolId : String) (topK : Int)
  | semanticSearch (query : String)
deriving DecidableEq

/-- The outcome of the awaited API call. -/
inductive ApiOutcome (α : Type) where
  | ok (data : α)
  | httpError (status : Nat)
  | networkError
deriving DecidableEq

/-- `handleSearch(e)`: rejects a blank protocol; otherwise clears the
previous results, issues `apiService.findSimilarRequests` and fills the
state from the response. A 404 sets the protocol-not-found error and
leaves the cleared `results`/`originalRequest` untouched; any other
failure sets the generic search error. Returns the new state and the
list of API calls issued. -/
def handleSearch (st : PSState) (api : ApiOutcome ProtocolData) :
    PSState × List ApiCall :=
  if Js.trim st.protocolId = "" then
    ({ st with error := some PSMessage.informProtocol }, [])
  else
    let cleared := { st with
      results := []
      originalRequest := none
      error := none
      loading := true }
    let call := ApiCall.findSimilarRequests (Js.trim st.protocolId) st.topK
    match api with
    | ApiOutcome.ok data =>
        match data.similar_requests with
        | none =>
            ({ cleared with
                loading := false
                error := some PSMessage.searchFailed }, [call])
        | some sims =>
            ({ cleared with
                loading := false
                originalRequest := data.original_request
                results := sims }, [call])
    | ApiOutcome.httpError status =>
        if status = 404 then
          ({ cleared with
              loading := false
              error := some (PSMessage.protocolNotFound st.protocolId) }, [call])
        else
          ({ cleared with
              loading := false
              error := some PSMessage.searchFailed }, [call])
    | ApiOutcome.networkError =>
        ({ cleared with
            loading := false
            error := some PSMessage.searchFailed }, [call])

/-- C4: a protocol lookup whose protocol is not in the index (the API
answers 404) is the terminal failure: the state shows the not-found
error with no partial result (no original record, empty similar list),
and the only call issued was the protocol lookup itself — no fallback
semantic search is performed. -/
theorem protocol_not_found_no_partial_result (st : PSState)
    (h : Js.trim st.protocolId ≠ "") :
    (handleSearch st (ApiOutcome.httpError 404)).1.results = [] ∧
    (handleSearch st (ApiOutcome.httpError 404)).1.originalRequest = none ∧
    (handleSearch st (ApiOutcome.httpError 404)).1.error =
      some (PSMessage.protocolNotFound st.protocolId) ∧
    (handleSearch st (ApiOutcome.httpError 404)).2 =
      [ApiCall.findSimilarRequests (Js.trim st.protocolId) st.topK] ∧
    ∀ q, ApiCall.semanticSearch q ∉ (handleSearch st (ApiOutcome.httpError 404)).2 := by
  simp [handleSearch, h]

/-- Witness for C4 at the spec's Scenario B protocol. -/
theorem protocol_not_found_no_partial_result_witness :
    (handleSearch ⟨"60110003084201855", 5, [], none, false, none⟩
        (ApiOutcome.httpError 404)).1.results = [] ∧
    (handleSearch ⟨"60110003084201855", 5, [], none, false, none⟩
        (ApiOutcome.httpError 404)).1.originalRequest = none ∧
    (handleSearch ⟨"60110003084201855", 5, [], none, false, none⟩
        (ApiOutcome.httpError 404)).1.error =
      some (PSMessage.protocolNotFound "60110003084201855") ∧
    (handleSearch ⟨"60110003084201855", 5, [], none, false, none⟩
        (ApiOutcome.httpError 404)).2 =
      [ApiCall.findSimilarRequests (Js.trim "60110003084201855") 5] ∧
    ∀ q, ApiCall.semanticSearch q ∉
      (handleSearch ⟨"60110003084201855", 5, [], none, false, none⟩
        (ApiOutcome.httpError 404)).2 :=
  protocol_not_found_no_partial_result ⟨"60110003084201855", 5, [], none, false, none⟩
    (by decide)

/-- The `topK` input's `onChange` handler:
`setTopK(parseInt(e.target.value) || 5)`. -/
def topKChange (v : String) : Int :=
  Js.orElseInt (Js.parseInt v) 5

end ProtocolSearch

namespace AppealSearch

/-- The `topK` input's `onChange` handler:
`setTopK(parseInt(e.target.value) || 5)`. -/
def topKChange (v : String) : Int :=
  Js.orElseInt (Js.parseInt v) 5

/-- `renderExpandableText(text, appealId, maxLength = 500)`: identical
to the appeal-analysis renderer but with a 500-character default bound. -/
def renderExpandableText (text : List Char) (isExpanded : Bool)
    (maxLength : Nat := 500) : List Char :=
  if maxLength < text.length then
    if isExpanded then text else text.take maxLength ++ "...".data
  else text

end AppealSearch

/-- C6: in both excerpt renderers, collapsed text longer than the bound
is displayed as exactly the first `maxLength` characters followed by
the explicit `...` truncation marker, and text within the bound is
rendered in full, unmodified — long text is never cut silently. -/
theorem excerpt_truncation_explicit (text : List Char) (maxLength : Nat) :
    (maxLength < text.length →
      AppealAnalysis.renderExpandableText text false maxLength =
        text.take maxLength ++ "...".data ∧
      (text.take maxLength).length = maxLength) ∧
    (text.length ≤ maxLength →
      AppealAnalysis.renderExpandableText text false maxLength = text) ∧
    AppealSearch.renderExpandableText text false maxLength =
      AppealAnalysis.renderExpandableText text false maxLength := by
  refine ⟨fun h => ⟨?_, ?_⟩, fun h => ?_, rfl⟩
  · simp [AppealAnalysis.renderExpandableText, h]
  · simp only [List.length_take]
    omega
  · simp [AppealAnalysis.renderExpandableText, Nat.not_lt.mpr h]

/-- C9: a non-numeric or empty string in a numeric field is silently
coerced to the field's default — `top_k` to 1 in the appeal-analysis
form and to 5 in the two similar-search forms, `min_score` to 0 — and
the coerced values lie inside the valid ranges, so such inputs never
trigger the out-of-range rejection of `validateForm`. -/
theorem non_numeric_input_coerced_to_default (v w : String)
    (hv : Js.parseInt v = none) (hw : Js.parseFloat w = none) :
    AppealAnalysis.topKChange v = 1 ∧
    ProtocolSearch.topKChange v = 5 ∧
    AppealSearch.topKChange v = 5 ∧
    AppealAnalysis.minScoreChange w = 0 ∧
    (∀ f : AppealAnalysis.AnalysisForm,
      f.top_k = AppealAnalysis.topKChange v →
      f.min_score = AppealAnalysis.minScoreChange w →
      AppealAnalysis.FormError.topKOutOfRange ∉ AppealAnalysis.validateForm f ∧
      AppealAnalysis.FormError.minScoreOutOfRange ∉ AppealAnalysis.validateForm f) := by
  have h1 : AppealAnalysis.topKChange v = 1 := by
    simp [AppealAnalysis.topKChange, Js.orElseInt, hv]
  have h4 : AppealAnalysis.minScoreChange w = 0 := by
    simp [AppealAnalysis.minScoreChange, Js.orElseRat, hw]
  refine ⟨h1, by simp [ProtocolSearch.topKChange, Js.orElseInt, hv],
    by simp [AppealSearch.topKChange, Js.orElseInt, hv], h4, fun f hf1 hf2 => ?_⟩
  rw [h1] at hf1
  rw [h4] at hf2
  constructor <;>
  · simp [AppealAnalysis.validateForm, hf1, hf2]
    split_ifs <;> simp

/-- Witness for C9: the empty string and a non-numeric string both
parse to `NaN` and are coerced to the defaults. -/
theorem non_numeric_input_coerced_to_default_witness :
    AppealAnalysis.topKChange "abc" = 1 ∧
    ProtocolSearch.topKChange "abc" = 5 ∧
    AppealSearch.topKChange "abc" = 5 ∧
    AppealAnalysis.minScoreChange "" = 0 ∧
    (∀ f : AppealAnalysis.AnalysisForm,
      f.top_k = AppealAnalysis.topKChange "abc" →
      f.min_score = AppealAnalysis.minScoreChange "" →
      AppealAnalysis.FormError.topKOutOfRange ∉ AppealAnalysis.validateForm f ∧
      AppealAnalysis.FormError.minScoreOutOfRange ∉ AppealAnalysis.validateForm f) :=
  non_numeric_input_coerced_to_default "abc" "" (by decide) (by decide)



namespace Core

/-- The domain-fixed set of Appeal decision labels (§3): Granted /
Denied / Partially Granted / Not Known / Moot, carried in the indexed
data as Deferido / Indeferido / Parcialmente Deferido / Nao
conhecimento / Perda de objeto. -/
inductive Decision where
  | deferido
  | indeferido
  | parcialDeferido
  | naoConhecimento
  | perdaObjeto
deriving DecidableEq

/-- Modelled from the spec: the fixed priority order among decision
labels that breaks `predictedLabel` ties (§4.5; the spec fixes that
such an order exists and is documented, not which one it is). -/
def decisionPriority : List Decision :=
  [Decision.indeferido, Decision.deferido, Decision.parcialDeferido,
   Decision.naoConhecimento, Decision.perdaObjeto]

/-- One entry of the decision-frequency distribution: a label present
in the sample with its count and percentage. -/
structure DecisionStat where
  label : Decision
  count : Nat
  percentage : ℚ
deriving DecidableEq

/-- `DecisionStats` (§3): the mapping from observed decision label to
(count, percentage), plus the predicted outcome label. -/
structure DecisionStats where
  stats : List DecisionStat
  predictedLabel : Decision
deriving DecidableEq

/-- The Outcome Aggregator's failure on an empty sample (§4.5). -/
inductive AggregateError where
  | insufficientEvidence
deriving DecidableEq

/-- Modelled from the spec: the Outcome Aggregator (§4.5), whose
backend implementation is not part of the repository snapshot. Counts
occurrences of each decision label among the supplied hits;
`percentage = 100 * count / total` for each label present (labels with
zero occurrences are omitted, since only labels occurring in the
sample are listed); `predictedLabel` is the label with the highest
count, ties broken by the fixed `decisionPriority`; fails with
`InsufficientEvidence` on an empty sample. -/
def aggregate (hits : List Decision) : Except AggregateError DecisionStats :=
  match hits with
  | [] => Except.error AggregateError.insufficientEvidence
  | d :: _ =>
    let stats := hits.dedup.map fun l =>
      DecisionStat.mk l (hits.count l) (100 * (hits.count l : ℚ) / hits.length)
    let best := decisionPriority.foldl
      (fun b l => if hits.count b < hits.count l then l else b) d
    Except.ok (DecisionStats.mk stats best)

/-- A candidate Request hit of the Joiner's first-phase search (§4.4
step 2). -/
structure RequestHit where
  protocol : String
  score : ℚ
deriving DecidableEq

/-- An Appeal record as seen by the Joiner: the optional
`relatedProtocol` back-link and the hit's similarity score. -/
structure AppealRecord where
  relatedProtocol : Option String
  score : ℚ
deriving DecidableEq

/-- Modelled from the spec: §4.4 step 3, the primary join — resolve the
Appeals linked to a candidate Request through `relatedProtocol` (the
fallback secondary semantic search applies only when the corpora carry
no explicit link). -/
def resolveLinkedAppeals (appealIndex : List AppealRecord) (r : RequestHit) :
    List AppealRecord :=
  appealIndex.filter fun a => decide (a.relatedProtocol = some r.protocol)

/-- The best similarity score among a Request's joined Appeals. -/
def bestScore (l : List AppealRecord) : ℚ :=
  (l.map AppealRecord.score).foldr max 0

/-- Modelled from the spec: the combined score of a surviving pair
(§4.4 step 4, "e.g., mean of the two similarity scores"). -/
def combinedScore (p : RequestHit × List AppealRecord) : ℚ :=
  (p.1.score + bestScore p.2) / 2

/-- Insertion into a list kept sorted by descending combined score. -/
def insertRanked (x : RequestHit × List AppealRecord) :
    List (RequestHit × List AppealRecord) → List (RequestHit × List AppealRecord)
  | [] => [x]
  | y :: rest =>
      if combinedScore y < combinedScore x then x :: y :: rest
      else y :: insertRanked x rest

/-- Re-ranking of the surviving pairs by combined score (§4.4 step 4). -/
def rankByCombinedScore (l : List (RequestHit × List AppealRecord)) :
    List (RequestHit × List AppealRecord) :=
  l.foldr insertRanked []

/-- Modelled from the spec: the Cross-Reference Joiner (§4.4), whose
backend implementation is not part of the repository snapshot. Pairs
each candidate Request with its linked Appeals, keeps only Requests
that resolved at least one linked Appeal, re-ranks the surviving pairs
by combined score and truncates to `topK`. -/
def crossReference (candidates : List RequestHit) (appealIndex : List AppealRecord)
    (topK : Nat) : List (RequestHit × List AppealRecord) :=
  let paired := candidates.map fun r => (r, resolveLinkedAppeals appealIndex r)
  let joined := paired.filter fun p => decide (p.2 ≠ [])
  (rankByCombinedScore joined).take topK

lemma mem_insertRanked {z x : RequestHit × List AppealRecord}
    {l : List (RequestHit × List AppealRecord)} (h : z ∈ insertRanked x l) :
    z = x ∨ z ∈ l := by
  induction l with
  | nil => simpa [insertRanked] using h
  | cons y rest ih =>
    rw [insertRanked] at h
    split at h
    · simpa using h
    · rcases List.mem_cons.mp h with h | h
      · exact Or.inr (List.mem_cons.mpr (Or.inl h))
      · rcases ih h with h | h
        · exact Or.inl h
        · exact Or.inr (List.mem_cons.mpr (Or.inr h))

lemma mem_rankByCombinedScore {z : RequestHit × List AppealRecord}
    {l : List (RequestHit × List AppealRecord)} (h : z ∈ rankByCombinedScore l) :
    z ∈ l := by
  induction l with
  | nil => simp [rankByCombinedScore] at h
  | cons y rest ih =>
    rw [rankByCombinedScore, List.foldr_cons] at h
    rcases mem_insertRanked h with h | h
    · simp [h]
    · exact List.mem_cons.mpr (Or.inr (ih h))

lemma aggregate_cons (d : Decision) (rest : List Decision) :
    aggregate (d :: rest) = Except.ok (DecisionStats.mk
      ((d :: rest).dedup.map fun l => DecisionStat.mk l ((d :: rest).count l)
        (100 * ((d :: rest).count l : ℚ) / (d :: rest).length))
      (decisionPriority.foldl
        (fun b l => if (d :: rest).count b < (d :: rest).count l then l else b) d)) :=
  rfl

/-- C7: on a non-empty set of appeal hits, `aggregate` succeeds and
returns, for each decision label present among the hits, an entry with
`percentage = 100 * count / total`; every listed entry has a positive
count (zero-occurrence labels are omitted); and the percentages sum to
exactly 100, hence within the ±0.1 rounding tolerance. -/
theorem aggregate_percentages_sum (hits : List Decision) (h : hits ≠ []) :
    ∃ st, aggregate hits = Except.ok st ∧
      (∀ l ∈ hits, DecisionStat.mk l (hits.count l)
          (100 * (hits.count l : ℚ) / hits.length) ∈ st.stats) ∧
      (∀ s ∈ st.stats, 0 < s.count ∧
        s.percentage = 100 * (s.count : ℚ) / hits.length) ∧
      (st.stats.map DecisionStat.percentage).sum = 100 ∧
      |(st.stats.map DecisionStat.percentage).sum - 100| ≤ 1 / 10 := by
  obtain ⟨d, rest, rfl⟩ : ∃ d rest, hits = d :: rest := by
    cases hits with
    | nil => exact absurd rfl h
    | cons d rest => exact ⟨d, rest, rfl⟩
  have hL : (((d :: rest).length : ℚ)) ≠ 0 := by
    rw [List.length_cons]
    exact_mod_cast (rest.length).succ_ne_zero
  have hsum : ((((d :: rest).dedup.map fun l => DecisionStat.mk l ((d :: rest).count l)
      (100 * ((d :: rest).count l : ℚ) / (d :: rest).length)).map
        DecisionStat.percentage).sum) = 100 := by
    rw [List.map_map]
    have hfun : (DecisionStat.percentage ∘ fun l => DecisionStat.mk l ((d :: rest).count l)
        (100 * ((d :: rest).count l : ℚ) / (d :: rest).length)) =
        fun l => (100 / ((d :: rest).length : ℚ)) * ((d :: rest).count l : ℚ) := by
      funext l
      simp only [Function.comp]
      ring
    rw [hfun, List.sum_map_mul_left]
    have hcast : ((d :: rest).dedup.map fun l => (((d :: rest).count l : ℕ) : ℚ)).sum =
        ((((d :: rest).dedup.map fun l => (d :: rest).count l).sum : ℕ) : ℚ) := by
      rw [Nat.cast_list_sum, List.map_map]
      rfl
    rw [hcast, List.sum_map_count_dedup_eq_length, div_mul_cancel₀ 100 hL]
  rw [aggregate_cons]
  refine ⟨_, rfl, ?_, ?_, hsum, by rw [hsum]; norm_num⟩
  · intro l hl
    exact List.mem_map.mpr ⟨l, List.mem_dedup.mpr hl, rfl⟩
  · intro s hs
    obtain ⟨l, hl, rfl⟩ := List.mem_map.mp hs
    exact ⟨List.count_pos_iff.mpr (List.mem_dedup.mp hl), rfl⟩

/-- Witness for C7 at the spec's Scenario A sample
{Denied, Denied, Granted}. -/
theorem aggregate_percentages_sum_witness :
    ∃ st, aggregate [Decision.indeferido, Decision.indeferido, Decision.deferido] =
        Except.ok st ∧
      (∀ l ∈ [Decision.indeferido, Decision.indeferido, Decision.deferido],
        DecisionStat.mk l
            ([Decision.indeferido, Decision.indeferido, Decision.deferido].count l)
            (100 * (([Decision.indeferido, Decision.indeferido,
                Decision.deferido].count l : ℚ)) /
              [Decision.indeferido, Decision.indeferido, Decision.deferido].length) ∈
          st.stats) ∧
      (∀ s ∈ st.stats, 0 < s.count ∧
        s.percentage = 100 * (s.count : ℚ) /
          [Decision.indeferido, Decision.indeferido, Decision.deferido].length) ∧
      (st.stats.map DecisionStat.percentage).sum = 100 ∧
      |(st.stats.map DecisionStat.percentage).sum - 100| ≤ 1 / 10 :=
  aggregate_percentages_sum [Decision.indeferido, Decision.indeferido, Decision.deferido]
    (by decide)

/-- C8: every pair in a `crossReference` result carries at least one
correlated Appeal: a Request that resolved no linked Appeal is filtered
out before ranking and truncation, so the result is an intersection of
the two corpora, never a union. -/
theorem crossReference_no_unpaired (candidates : List RequestHit)
    (appealIndex : List AppealRecord) (topK : Nat)
    (p : RequestHit × List AppealRecord)
    (hp : p ∈ crossReference candidates appealIndex topK) :
    p.2 ≠ [] := by
  simp only [crossReference] at hp
  have h1 := List.mem_of_mem_take hp
  have h2 := mem_rankByCombinedScore h1
  have h3 := List.mem_filter.mp h2
  exact of_decide_eq_true h3.2

/-- Witness for C8: a single candidate with one linked Appeal survives
the join, and its appeal list is non-empty. -/
theorem crossReference_no_unpaired_witness :
    ((RequestHit.mk "p1" 1, [AppealRecord.mk (some "p1") 1]) :
      RequestHit × List AppealRecord).2 ≠ [] :=
  crossReference_no_unpaired [RequestHit.mk "p1" 1] [AppealRecord.mk (some "p1") 1] 1
    (RequestHit.mk "p1" 1, [AppealRecord.mk (some "p1") 1]) (by decide)

end Core

namespace Chatbot

/-- The backtick character, U+0060 (the delimiter of the inline-code
substitution). -/
def tick : Char := Char.ofNat 96

/-- `escapeHtml(text)` acts per character: assigning to `textContent`
and reading `innerHTML` escapes the HTML special characters. -/
def escapeChar (c : Char) : List Char :=
  if c = '&' then "&amp;".data
  else if c = '<' then "&lt;".data
  else if c = '>' then "&gt;".data
  else [c]

/-- `escapeHtml(text)`: the text with `&`, `<` and `>` replaced by
their entities. -/
def escapeHtml : List Char → List Char
  | [] => []
  | c :: rest => escapeChar c ++ escapeHtml rest

/-- The regex engine's scan for the lazy bold closer: the shortest
split `cs = mid ++ '*' :: '*' :: q` whose `mid` holds no newline
(`.` does not match a newline), `none` when there is no such split. -/
def seekClose : List Char → Option (List Char × List Char)
  | [] => none
  | [_] => none
  | c :: d :: rest =>
    if c = '*' ∧ d = '*' then some ([], rest)
    else if c = '\n' then none
    else (seekClose (d :: rest)).map fun p => (c :: p.1, p.2)

/-- The scan for the lazy italic closer: the shortest split
`cs = mid ++ '*' :: q` with no newline in `mid`. -/
def seekCloseSingle : List Char → Option (List Char × List Char)
  | [] => none
  | c :: rest =>
    if c = '*' then some ([], rest)
    else if c = '\n' then none
    else (seekCloseSingle rest).map fun p => (c :: p.1, p.2)

/-- The scan for the code closer: the split at the next backtick
(`[^`+ "`" + `]+` stops exactly there; a newline may occur inside). -/
def seekTick : List Char → Option (List Char × List Char)
  | [] => none
  | c :: rest =>
    if c = tick then some ([], rest)
    else (seekTick rest).map fun p => (c :: p.1, p.2)

lemma seekClose_eq : ∀ cs mid q : List Char, seekClose cs = some (mid, q) →
    cs = mid ++ '*' :: '*' :: q := by
  intro cs
  induction cs with
  | nil => intro mid q h; simp [seekClose] at h
  | cons c rest ih =>
    intro mid q h
    cases rest with
    | nil => simp [seekClose] at h
    | cons d rest2 =>
      simp only [seekClose] at h
      by_cases h1 : c = '*' ∧ d = '*'
      · rw [if_pos h1] at h
        simp only [Option.some.injEq, Prod.mk.injEq] at h
        obtain ⟨rfl, rfl⟩ := h
        obtain ⟨rfl, rfl⟩ := h1
        rfl
      · rw [if_neg h1] at h
        by_cases h2 : c = '\n'
        · rw [if_pos h2] at h
          simp at h
        · rw [if_neg h2, Option.map_eq_some'] at h
          obtain ⟨⟨a, b⟩, ha, hab⟩ := h
          simp only [Prod.mk.injEq] at hab
          obtain ⟨rfl, rfl⟩ := hab
          simpa using ih a b ha

lemma seekCloseSingle_eq : ∀ cs mid q : List Char,
    seekCloseSingle cs = some (mid, q) → cs = mid ++ '*' :: q := by
  intro cs
  induction cs with
  | nil => intro mid q h; simp [seekCloseSingle] at h
  | cons c rest ih =>
    intro mid q h
    simp only [seekCloseSingle] at h
    by_cases h1 : c = '*'
    · rw [if_pos h1] at h
      simp only [Option.some.injEq, Prod.mk.injEq] at h
      obtain ⟨rfl, rfl⟩ := h
      rw [h1]
      rfl
    · rw [if_neg h1] at h
      by_cases h2 : c = '\n'
      · rw [if_pos h2] at h
        simp at h
      · rw [if_neg h2, Option.map_eq_some'] at h
        obtain ⟨⟨a, b⟩, ha, hab⟩ := h
        simp only [Prod.mk.injEq] at hab
        obtain ⟨rfl, rfl⟩ := hab
        simpa using ih a b ha

lemma seekTick_eq : ∀ cs mid q : List Char,
    seekTick cs = some (mid, q) → cs = mid ++ tick :: q := by
  intro cs
  induction cs with
  | nil => intro mid q h; simp [seekTick] at h
  | cons c rest ih =>
    intro mid q h
    simp only [seekTick] at h
    by_cases h1 : c = tick
    · rw [if_pos h1] at h
      simp only [Option.some.injEq, Prod.mk.injEq] at h
      obtain ⟨rfl, rfl⟩ := h
      rw [h1]
      rfl
    · rw [if_neg h1, Option.map_eq_some'] at h
      obtain ⟨⟨a, b⟩, ha, hab⟩ := h
      simp only [Prod.mk.injEq] at hab
      obtain ⟨rfl, rfl⟩ := hab
      simpa using ih a b ha

end Chatbot

namespace Chatbot

lemma seekClose_length {cs mid q : List Char} (h : seekClose cs = some (mid, q)) :
    q.length + 2 ≤ cs.length := by
  rw [seekClose_eq cs mid q h]
  simp only [List.length_append, List.length_cons]
  omega

lemma seekCloseSingle_length {cs mid q : List Char}
    (h : seekCloseSingle cs = some (mid, q)) : q.length + 1 ≤ cs.length := by
  rw [seekCloseSingle_eq cs mid q h]
  simp only [List.length_append, List.length_cons]
  omega

lemma seekTick_length {cs mid q : List Char} (h : seekTick cs = some (mid, q)) :
    q.length + 1 ≤ cs.length := by
  rw [seekTick_eq cs mid q h]
  simp only [List.length_append, List.length_cons]
  omega

/-- The first substitution of `formatMessage`:
`.replace(/\*\*(.*?)\*\*/g, '<strong>$1</strong>')` — a global lazy
scan; on failure at a position the engine moves one character on. -/
def boldPass : List Char → List Char
  | [] => []
  | [c] => [c]
  | c :: d :: rest =>
    if c = '*' ∧ d = '*' then
      match h : seekClose rest with
      | some (mid, q) =>
          "<strong>".data ++ mid ++ "</strong>".data ++ boldPass q
      | none => c :: boldPass (d :: rest)
    else c :: boldPass (d :: rest)
termination_by s => s.length
decreasing_by
  · have := seekClose_length h
    simp only [List.length_cons]
    omega
  · simp only [List.length_cons]
    omega
  · simp only [List.length_cons]
    omega

/-- The second substitution:
`.replace(/\*(.*?)\*/g, '<em>$1</em>')`. -/
def italicPass : List Char → List Char
  | [] => []
  | c :: rest =>
    if c = '*' then
      match h : seekCloseSingle rest with
      | some (mid, q) => "<em>".data ++ mid ++ "</em>".data ++ italicPass q
      | none => c :: italicPass rest
    else c :: italicPass rest
termination_by s => s.length
decreasing_by
  · have := seekCloseSingle_length h
    simp only [List.length_cons]
    omega
  · simp only [List.length_cons]
    omega
  · simp only [List.length_cons]
    omega

/-- The third substitution: the inline-code replacement on
backtick-delimited spans, whose delimited text must be non-empty
(`+` in the character class). An empty span is no match, so the scan
moves one character on. -/
def codePass : List Char → List Char
  | [] => []
  | c :: rest =>
    if c = tick then
      match h : seekTick rest with
      | some ([], _) => c :: codePass rest
      | some (m :: mid, q) =>
          "<code>".data ++ (m :: mid) ++ "</code>".data ++ codePass q
      | none => c :: codePass rest
    else c :: codePass rest
termination_by s => s.length
decreasing_by
  · simp only [List.length_cons]
    omega
  · have := seekTick_length h
    simp only [List.length_cons]
    omega
  · simp only [List.length_cons]
    omega
  · simp only [List.length_cons]
    omega

/-- The fourth substitution: `.replace(/\n/g, '<br>')`. -/
def newlinePass : List Char → List Char
  | [] => []
  | c :: rest => (if c = '\n' then "<br>".data else [c]) ++ newlinePass rest

/-- `formatMessage(content)`: escapes the HTML special characters
first, then applies the bold, italic, code and newline substitutions
in the code's order. -/
def formatMessage (content : String) : List Char :=
  newlinePass (codePass (italicPass (boldPass (escapeHtml content.data))))

/-- The four HTML tags (with their closers) that the markdown-like
substitutions may introduce. -/
def allowedTags : List (List Char) :=
  ["<strong>".data, "</strong>".data, "<em>".data, "</em>".data,
   "<code>".data, "</code>".data, "<br>".data]

/-- A character list is tag-safe when it is an interleaving of
characters other than `<` and `>` with complete allowed tags: every
angle bracket it holds belongs to a whole `<strong>`, `</strong>`,
`<em>`, `</em>`, `<code>`, `</code>` or `<br>` introduced by a
substitution, never to the escaped message text. -/
inductive TagSafe : List Char → Prop where
  | nil : TagSafe []
  | chr {c : Char} {s : List Char} : c ≠ '<' → c ≠ '>' → TagSafe s → TagSafe (c :: s)
  | tag {t s : List Char} : t ∈ allowedTags → TagSafe s → TagSafe (t ++ s)

end Chatbot

namespace Chatbot

lemma boldPass_nil : boldPass [] = [] := by
  rw [boldPass]

lemma boldPass_single (c : Char) : boldPass [c] = [c] := by
  rw [boldPass]

lemma boldPass_two_star {rest mid q : List Char} (h : seekClose rest = some (mid, q)) :
    boldPass ('*' :: '*' :: rest) =
      "<strong>".data ++ mid ++ "</strong>".data ++ boldPass q := by
  rw [boldPass, if_pos ⟨rfl, rfl⟩]
  split
  · rename_i mid2 q2 heq
    rw [h] at heq
    obtain ⟨rfl, rfl⟩ : mid2 = mid ∧ q2 = q := by simpa [eq_comm] using heq
    simp
  · rename_i heq
    rw [h] at heq
    exact absurd heq (by simp)

lemma boldPass_two_star_none {rest : List Char} (h : seekClose rest = none) :
    boldPass ('*' :: '*' :: rest) = '*' :: boldPass ('*' :: rest) := by
  rw [boldPass, if_pos ⟨rfl, rfl⟩]
  split
  · rename_i mid2 q2 heq
    rw [h] at heq
    exact absurd heq (by simp)
  · rfl

lemma boldPass_cons₂ {c d : Char} (rest : List Char) (h1 : ¬(c = '*' ∧ d = '*')) :
    boldPass (c :: d :: rest) = c :: boldPass (d :: rest) := by
  rw [boldPass, if_neg h1]

lemma italicPass_nil : italicPass [] = [] := by
  rw [italicPass]

lemma italicPass_star {rest mid q : List Char}
    (h : seekCloseSingle rest = some (mid, q)) :
    italicPass ('*' :: rest) =
      "<em>".data ++ mid ++ "</em>".data ++ italicPass q := by
  rw [italicPass, if_pos rfl]
  split
  · rename_i mid2 q2 heq
    rw [h] at heq
    obtain ⟨rfl, rfl⟩ : mid2 = mid ∧ q2 = q := by simpa [eq_comm] using heq
    simp
  · rename_i heq
    rw [h] at heq
    exact absurd heq (by simp)

lemma italicPass_star_none {rest : List Char} (h : seekCloseSingle rest = none) :
    italicPass ('*' :: rest) = '*' :: italicPass rest := by
  rw [italicPass, if_pos rfl]
  split
  · rename_i mid2 q2 heq
    rw [h] at heq
    exact absurd heq (by simp)
  · rfl

lemma italicPass_cons {c : Char} (rest : List Char) (hc : c ≠ '*') :
    italicPass (c :: rest) = c :: italicPass rest := by
  rw [italicPass, if_neg hc]

lemma codePass_nil : codePass [] = [] := by
  rw [codePass]

lemma codePass_tick_match {rest mid q : List Char} {m : Char}
    (h : seekTick rest = some (m :: mid, q)) :
    codePass (tick :: rest) =
      "<code>".data ++ (m :: mid) ++ "</code>".data ++ codePass q := by
  rw [codePass, if_pos rfl]
  split
  · rename_i q2 heq
    rw [h] at heq
    exact absurd heq (by simp)
  · rename_i m2 mid2 q2 heq
    rw [h] at heq
    obtain ⟨⟨rfl, rfl⟩, rfl⟩ : (m = m2 ∧ mid = mid2) ∧ q = q2 := by
      simpa [eq_comm] using heq
    simp
  · rename_i heq
    rw [h] at heq
    exact absurd heq (by simp)

lemma codePass_tick_empty {rest q : List Char} (h : seekTick rest = some ([], q)) :
    codePass (tick :: rest) = tick :: codePass rest := by
  rw [codePass, if_pos rfl]
  split
  · rfl
  · rename_i m2 mid2 q2 heq
    rw [h] at heq
    simp at heq
  · rfl

lemma codePass_tick_none {rest : List Char} (h : seekTick rest = none) :
    codePass (tick :: rest) = tick :: codePass rest := by
  rw [codePass, if_pos rfl]
  split
  · rfl
  · rename_i m2 mid2 q2 heq
    rw [h] at heq
    exact absurd heq (by simp)
  · rfl

lemma codePass_cons {c : Char} (rest : List Char) (hc : c ≠ tick) :
    codePass (c :: rest) = c :: codePass rest := by
  rw [codePass, if_neg hc]

end Chatbot

namespace Chatbot

lemma allowedTags_no_star : ∀ t ∈ allowedTags, '*' ∉ t := by decide

lemma allowedTags_no_tick : ∀ t ∈ allowedTags, tick ∉ t := by decide

lemma allowedTags_no_newline : ∀ t ∈ allowedTags, '\n' ∉ t := by decide

lemma allowedTags_head : ∀ t ∈ allowedTags, t.head? = some '<' := by decide

lemma tagSafe_append {a b : List Char} (ha : TagSafe a) (hb : TagSafe b) :
    TagSafe (a ++ b) := by
  induction ha with
  | nil => exact hb
  | chr h1 h2 _ ih => exact TagSafe.chr h1 h2 ih
  | tag ht _ ih =>
    rw [List.append_assoc]
    exact TagSafe.tag ht ih

lemma tagSafe_of_no_angle : ∀ s : List Char, (∀ x ∈ s, x ≠ '<' ∧ x ≠ '>') →
    TagSafe s := by
  intro s
  induction s with
  | nil => intro _; exact TagSafe.nil
  | cons c rest ih =>
    intro h
    have hc := h c (List.mem_cons_self c rest)
    exact TagSafe.chr hc.1 hc.2 (ih fun x hx => h x (List.mem_cons_of_mem c hx))

lemma tagSafe_cons_inv {c : Char} {l : List Char} (hc : c ≠ '<')
    (h : TagSafe (c :: l)) : c ≠ '>' ∧ TagSafe l := by
  generalize hm : c :: l = m at h
  cases h with
  | nil => simp at hm
  | chr h1 h2 hs =>
    injection hm with hm1 hm2
    subst hm1
    subst hm2
    exact ⟨h2, hs⟩
  | tag ht hs =>
    rename_i t s
    have hhead := allowedTags_head t ht
    cases t with
    | nil => simp at hhead
    | cons t0 t1 =>
      simp only [List.head?_cons, Option.some.injEq] at hhead
      rw [List.cons_append] at hm
      injection hm with hm1 hm2
      exact absurd (hm1.trans hhead) hc

lemma tagSafe_head_lt {l : List Char} (h : TagSafe ('<' :: l)) :
    ∃ t, t ∈ allowedTags ∧ ∃ s, '<' :: l = t ++ s ∧ TagSafe s := by
  generalize hm : '<' :: l = m at h
  cases h with
  | nil => simp at hm
  | chr h1 h2 hs =>
    injection hm with hm1 hm2
    exact absurd hm1.symm h1
  | tag ht hs =>
    rename_i t s
    exact ⟨t, ht, s, rfl, hs⟩

lemma tagSafe_split {m : List Char} (h : TagSafe m) :
    ∀ a b, m = a ++ b →
      (∀ c, b.head? = some c → c = '*' ∨ c = tick ∨ c = '\n') →
      TagSafe a ∧ TagSafe b := by
  induction h with
  | nil =>
    intro a b hab _
    obtain ⟨rfl, rfl⟩ := List.append_eq_nil.mp hab.symm
    exact ⟨TagSafe.nil, TagSafe.nil⟩
  | chr h1 h2 hs ih =>
    intro a b hab hb
    rename_i c s
    cases a with
    | nil =>
      simp only [List.nil_append] at hab
      exact ⟨TagSafe.nil, hab ▸ TagSafe.chr h1 h2 hs⟩
    | cons x a2 =>
      rw [List.cons_append] at hab
      injection hab with hab1 hab2
      subst hab1
      obtain ⟨ha2, hb2⟩ := ih a2 b hab2 hb
      exact ⟨TagSafe.chr h1 h2 ha2, hb2⟩
  | tag ht hs ih =>
    intro a b hab hb
    rename_i t s
    rcases List.append_eq_append_iff.mp hab.symm with ⟨m2, hm1, hm2⟩ | ⟨m2, hm1, hm2⟩
    · -- t = a ++ m2 and b = m2 ++ s: the split point falls inside or at the
      -- end of the tag
      cases m2 with
      | nil =>
        rw [List.append_nil] at hm1
        subst hm1
        simp only [List.nil_append] at hm2
        subst hm2
        refine ⟨?_, hs⟩
        have := TagSafe.tag ht TagSafe.nil
        rwa [List.append_nil] at this
      | cons y m3 =>
        exfalso
        have hy : y ∈ t := by
          rw [hm1]
          exact List.mem_append.mpr (Or.inr (List.mem_cons_self y m3))
        have hhy : y = '*' ∨ y = tick ∨ y = '\n' := by
          apply hb
          rw [hm2]
          rfl
        rcases hhy with rfl | rfl | rfl
        · exact allowedTags_no_star t ht hy
        · exact allowedTags_no_tick t ht hy
        · exact allowedTags_no_newline t ht hy
    · -- a = t ++ m2 and s = m2 ++ b: the split point falls after the tag
      obtain ⟨hm2', hb2⟩ := ih m2 b hm2 hb
      exact ⟨hm1 ▸ TagSafe.tag ht hm2', hb2⟩

end Chatbot

namespace Chatbot

lemma boldPass_copy {t : List Char} (ht : '*' ∉ t) :
    ∀ s, boldPass (t ++ s) = t ++ boldPass s := by
  induction t with
  | nil => intro s; simp
  | cons c t2 ih =>
    intro s
    have hc : c ≠ '*' := fun h => ht (h ▸ List.mem_cons_self c t2)
    have ht2 : '*' ∉ t2 := fun h => ht (List.mem_cons_of_mem c h)
    rw [List.cons_append]
    cases hts : t2 ++ s with
    | nil =>
      obtain ⟨rfl, rfl⟩ := List.append_eq_nil.mp hts
      simp [boldPass_single, boldPass_nil]
    | cons x u =>
      have hbc : boldPass (c :: x :: u) = c :: boldPass (x :: u) :=
        boldPass_cons₂ u (fun hcd => hc hcd.1)
      rw [hbc, ← hts, ih ht2 s]
      rfl

lemma italicPass_copy {t : List Char} (ht : '*' ∉ t) :
    ∀ s, italicPass (t ++ s) = t ++ italicPass s := by
  induction t with
  | nil => intro s; simp
  | cons c t2 ih =>
    intro s
    have hc : c ≠ '*' := fun h => ht (h ▸ List.mem_cons_self c t2)
    have ht2 : '*' ∉ t2 := fun h => ht (List.mem_cons_of_mem c h)
    rw [List.cons_append, italicPass_cons _ hc, ih ht2 s]
    rfl

lemma codePass_copy {t : List Char} (ht : tick ∉ t) :
    ∀ s, codePass (t ++ s) = t ++ codePass s := by
  induction t with
  | nil => intro s; simp
  | cons c t2 ih =>
    intro s
    have hc : c ≠ tick := fun h => ht (h ▸ List.mem_cons_self c t2)
    have ht2 : tick ∉ t2 := fun h => ht (List.mem_cons_of_mem c h)
    rw [List.cons_append, codePass_cons _ hc, ih ht2 s]
    rfl

lemma newlinePass_copy {t : List Char} (ht : '\n' ∉ t) :
    ∀ s, newlinePass (t ++ s) = t ++ newlinePass s := by
  induction t with
  | nil => intro s; rfl
  | cons c t2 ih =>
    intro s
    have hc : c ≠ '\n' := fun h => ht (h ▸ List.mem_cons_self c t2)
    have ht2 : '\n' ∉ t2 := fun h => ht (List.mem_cons_of_mem c h)
    rw [List.cons_append]
    show (if c = '\n' then "<br>".data else [c]) ++ newlinePass (t2 ++ s) = _
    rw [if_neg hc, ih ht2 s]
    rfl

lemma boldPass_tagSafe : ∀ n (s : List Char), s.length ≤ n → TagSafe s →
    TagSafe (boldPass s) := by
  intro n
  induction n with
  | zero =>
    intro s hl _
    have h0 : s = [] := List.eq_nil_of_length_eq_zero (Nat.le_zero.mp hl)
    subst h0
    rw [boldPass_nil]
    exact TagSafe.nil
  | succ n ih =>
    intro s hl hs
    cases s with
    | nil =>
      rw [boldPass_nil]
      exact TagSafe.nil
    | cons c rest =>
      by_cases hco : c = '<'
      · subst hco
        obtain ⟨t, ht, s2, heq, hs2⟩ := tagSafe_head_lt hs
        have htne : t ≠ [] := by
          intro h0
          have hh := allowedTags_head t ht
          rw [h0] at hh
          simp at hh
        rw [heq, boldPass_copy (allowedTags_no_star t ht)]
        refine TagSafe.tag ht (ih s2 ?_ hs2)
        have hlen2 : ('<' :: rest).length = t.length + s2.length := by
          rw [heq, List.length_append]
        have htp : 0 < t.length := List.length_pos.mpr htne
        simp only [List.length_cons] at hl hlen2
        omega
      · obtain ⟨hgt, hrest⟩ := tagSafe_cons_inv hco hs
        cases rest with
        | nil =>
          rw [boldPass_single]
          exact TagSafe.chr hco hgt TagSafe.nil
        | cons d rest2 =>
          by_cases hsd : c = '*' ∧ d = '*'
          · obtain ⟨rfl, rfl⟩ := hsd
            have hrest2 : TagSafe rest2 := (tagSafe_cons_inv (by decide) hrest).2
            cases hse : seekClose rest2 with
            | some p =>
              obtain ⟨mid, q⟩ := p
              rw [boldPass_two_star hse]
              have hre := seekClose_eq rest2 mid q hse
              have hsplit := tagSafe_split hrest2 mid ('*' :: '*' :: q) hre
                (fun c2 hc2 => by
                  simp only [List.head?_cons, Option.some.injEq] at hc2
                  exact Or.inl hc2.symm)
              have hq : TagSafe q :=
                (tagSafe_cons_inv (by decide)
                  (tagSafe_cons_inv (by decide) hsplit.2).2).2
              have hlq : q.length ≤ n := by
                have hreln : rest2.length = mid.length + ('*' :: '*' :: q).length := by
                  rw [hre, List.length_append]
                simp only [List.length_cons] at hl hreln
                omega
              have hbq := ih q hlq hq
              rw [List.append_assoc, List.append_assoc]
              exact TagSafe.tag (by decide)
                (tagSafe_append hsplit.1 (TagSafe.tag (by decide) hbq))
            | none =>
              rw [boldPass_two_star_none hse]
              refine TagSafe.chr (by decide) (by decide) (ih _ ?_ hrest)
              simp only [List.length_cons] at hl ⊢
              omega
          · rw [boldPass_cons₂ rest2 hsd]
            refine TagSafe.chr hco hgt (ih _ ?_ hrest)
            simp only [List.length_cons] at hl ⊢
            omega

end Chatbot

namespace Chatbot

lemma italicPass_tagSafe : ∀ n (s : List Char), s.length ≤ n → TagSafe s →
    TagSafe (italicPass s) := by
  intro n
  induction n with
  | zero =>
    intro s hl _
    have h0 : s = [] := List.eq_nil_of_length_eq_zero (Nat.le_zero.mp hl)
    subst h0
    rw [italicPass_nil]
    exact TagSafe.nil
  | succ n ih =>
    intro s hl hs
    cases s with
    | nil =>
      rw [italicPass_nil]
      exact TagSafe.nil
    | cons c rest =>
      by_cases hco : c = '<'
      · subst hco
        obtain ⟨t, ht, s2, heq, hs2⟩ := tagSafe_head_lt hs
        have htne : t ≠ [] := by
          intro h0
          have hh := allowedTags_head t ht
          rw [h0] at hh
          simp at hh
        rw [heq, italicPass_copy (allowedTags_no_star t ht)]
        refine TagSafe.tag ht (ih s2 ?_ hs2)
        have hlen2 : ('<' :: rest).length = t.length + s2.length := by
          rw [heq, List.length_append]
        have htp : 0 < t.length := List.length_pos.mpr htne
        simp only [List.length_cons] at hl hlen2
        omega
      · obtain ⟨hgt, hrest⟩ := tagSafe_cons_inv hco hs
        by_cases hst : c = '*'
        · subst hst
          cases hse : seekCloseSingle rest with
          | some p =>
            obtain ⟨mid, q⟩ := p
            rw [italicPass_star hse]
            have hre := seekCloseSingle_eq rest mid q hse
            have hsplit := tagSafe_split hrest mid ('*' :: q) hre
              (fun c2 hc2 => by
                simp only [List.head?_cons, Option.some.injEq] at hc2
                exact Or.inl hc2.symm)
            have hq : TagSafe q := (tagSafe_cons_inv (by decide) hsplit.2).2
            have hlq : q.length ≤ n := by
              have hreln : rest.length = mid.length + ('*' :: q).length := by
                rw [hre, List.length_append]
              simp only [List.length_cons] at hl hreln
              omega
            have hbq := ih q hlq hq
            rw [List.append_assoc, List.append_assoc]
            exact TagSafe.tag (by decide)
              (tagSafe_append hsplit.1 (TagSafe.tag (by decide) hbq))
          | none =>
            rw [italicPass_star_none hse]
            refine TagSafe.chr (by decide) (by decide) (ih _ ?_ hrest)
            simp only [List.length_cons] at hl
            omega
        · rw [italicPass_cons rest hst]
          refine TagSafe.chr hco hgt (ih _ ?_ hrest)
          simp only [List.length_cons] at hl
          omega

lemma codePass_tagSafe : ∀ n (s : List Char), s.length ≤ n → TagSafe s →
    TagSafe (codePass s) := by
  intro n
  induction n with
  | zero =>
    intro s hl _
    have h0 : s = [] := List.eq_nil_of_length_eq_zero (Nat.le_zero.mp hl)
    subst h0
    rw [codePass_nil]
    exact TagSafe.nil
  | succ n ih =>
    intro s hl hs
    cases s with
    | nil =>
      rw [codePass_nil]
      exact TagSafe.nil
    | cons c rest =>
      by_cases hco : c = '<'
      · subst hco
        obtain ⟨t, ht, s2, heq, hs2⟩ := tagSafe_head_lt hs
        have htne : t ≠ [] := by
          intro h0
          have hh := allowedTags_head t ht
          rw [h0] at hh
          simp at hh
        rw [heq, codePass_copy (allowedTags_no_tick t ht)]
        refine TagSafe.tag ht (ih s2 ?_ hs2)
        have hlen2 : ('<' :: rest).length = t.length + s2.length := by
          rw [heq, List.length_append]
        have htp : 0 < t.length := List.length_pos.mpr htne
        simp only [List.length_cons] at hl hlen2
        omega
      · obtain ⟨hgt, hrest⟩ := tagSafe_cons_inv hco hs
        by_cases hst : c = tick
        · subst hst
          cases hse : seekTick rest with
          | some p =>
            obtain ⟨mid0, q⟩ := p
            cases mid0 with
            | nil =>
              rw [codePass_tick_empty hse]
              refine TagSafe.chr (by decide) (by decide) (ih _ ?_ hrest)
              simp only [List.length_cons] at hl
              omega
            | cons m mid =>
              rw [codePass_tick_match hse]
              have hre := seekTick_eq rest (m :: mid) q hse
              have hsplit := tagSafe_split hrest (m :: mid) (tick :: q) hre
                (fun c2 hc2 => by
                  simp only [List.head?_cons, Option.some.injEq] at hc2
                  exact Or.inr (Or.inl hc2.symm))
              have hq : TagSafe q := (tagSafe_cons_inv (by decide) hsplit.2).2
              have hlq : q.length ≤ n := by
                have hreln : rest.length = (m :: mid).length + (tick :: q).length := by
                  rw [hre, List.length_append]
                simp only [List.length_cons] at hl hreln
                omega
              have hbq := ih q hlq hq
              rw [List.append_assoc, List.append_assoc]
              exact TagSafe.tag (by decide)
                (tagSafe_append hsplit.1 (TagSafe.tag (by decide) hbq))
          | none =>
            rw [codePass_tick_none hse]
            refine TagSafe.chr (by decide) (by decide) (ih _ ?_ hrest)
            simp only [List.length_cons] at hl
            omega
        · rw [codePass_cons rest hst]
          refine TagSafe.chr hco hgt (ih _ ?_ hrest)
          simp only [List.length_cons] at hl
          omega

lemma newlinePass_tagSafe {s : List Char} (hs : TagSafe s) :
    TagSafe (newlinePass s) := by
  induction hs with
  | nil => exact TagSafe.nil
  | chr h1 h2 hs ih =>
    rename_i c s2
    show TagSafe ((if c = '\n' then "<br>".data else [c]) ++ newlinePass s2)
    by_cases hc : c = '\n'
    · rw [if_pos hc]
      exact TagSafe.tag (by decide) ih
    · rw [if_neg hc]
      exact TagSafe.chr h1 h2 ih
  | tag ht hs ih =>
    rename_i t s2
    rw [newlinePass_copy (allowedTags_no_newline t ht)]
    exact TagSafe.tag ht ih

lemma escapeChar_no_angle (c : Char) : ∀ x ∈ escapeChar c, x ≠ '<' ∧ x ≠ '>' := by
  intro x hx
  simp only [escapeChar] at hx
  split_ifs at hx with h1 h2 h3
  · simp only [List.mem_cons, List.not_mem_nil, or_false] at hx
    rcases hx with rfl | rfl | rfl | rfl | rfl <;> exact ⟨by decide, by decide⟩
  · simp only [List.mem_cons, List.not_mem_nil, or_false] at hx
    rcases hx with rfl | rfl | rfl | rfl <;> exact ⟨by decide, by decide⟩
  · simp only [List.mem_cons, List.not_mem_nil, or_false] at hx
    rcases hx with rfl | rfl | rfl | rfl <;> exact ⟨by decide, by decide⟩
  · simp only [List.mem_cons, List.not_mem_nil, or_false] at hx
    subst hx
    exact ⟨h2, h3⟩

lemma escapeHtml_no_angle : ∀ s : List Char, ∀ x ∈ escapeHtml s,
    x ≠ '<' ∧ x ≠ '>' := by
  intro s
  induction s with
  | nil => intro x hx; simp [escapeHtml] at hx
  | cons c rest ih =>
    intro x hx
    rw [show escapeHtml (c :: rest) = escapeChar c ++ escapeHtml rest from rfl,
      List.mem_append] at hx
    rcases hx with hx | hx
    · exact escapeChar_no_angle c x hx
    · exact ih x hx

/-- C10: `formatMessage` escapes the HTML special characters of the
content before the markdown-style substitutions are applied: the
escaped text holds no angle bracket at all, and the rendered message is
tag-safe — every `<` and `>` it holds belongs to a complete
`<strong>`, `</strong>`, `<em>`, `</em>`, `<code>`, `</code>` or
`<br>` inserted by a substitution, so characters of the input text
never contribute raw HTML tags. -/
theorem formatMessage_escapes_before_markdown (content : String) :
    formatMessage content =
      newlinePass (codePass (italicPass (boldPass (escapeHtml content.data)))) ∧
    (∀ x ∈ escapeHtml content.data, x ≠ '<' ∧ x ≠ '>') ∧
    TagSafe (formatMessage content) := by
  refine ⟨rfl, escapeHtml_no_angle content.data, ?_⟩
  have h0 : TagSafe (escapeHtml content.data) :=
    tagSafe_of_no_angle _ (escapeHtml_no_angle content.data)
  have h1 := boldPass_tagSafe (escapeHtml content.data).length _ le_rfl h0
  have h2 := italicPass_tagSafe (boldPass (escapeHtml content.data)).length _ le_rfl h1
  have h3 := codePass_tagSafe
    (italicPass (boldPass (escapeHtml content.data))).length _ le_rfl h2
  exact newlinePass_tagSafe h3

end Chatbot
